import Mathlib

/-!
Verification of `util.go` from the powkit repository (package `pow`).

Machine integers are modelled as `Nat` with explicit reduction modulo `2^32`
(written as the literal `4294967296`, named `two32`) exactly where the Go
`uint32` arithmetic wraps.  Byte buffers and word slices are `List Nat`.
-/

/-- `2^32`, the modulus of Go `uint32` arithmetic. -/
def two32 : Nat := 4294967296

/-- Go `uint32` addition: wraps modulo `2^32`. -/
def add32 (a b : Nat) : Nat := (a + b) % two32

/-- Go `uint32` multiplication: wraps modulo `2^32`. -/
def mul32 (a b : Nat) : Nat := (a * b) % two32

/-- Go `uint32` subtraction `a - b`: wraps modulo `2^32`. -/
def sub32 (a b : Nat) : Nat := (a % two32 + (two32 - b % two32)) % two32

/-- Go `uint32` left shift `a << b` (for shift amounts `b < 32`): the result is
truncated modulo `2^32`. -/
def shl32 (a b : Nat) : Nat := (a <<< b) % two32

/-- `const FNV_PRIME uint32 = 0x01000193` (util.go line 17). -/
def FNV_PRIME : Nat := 0x01000193

/-- `fnv1(u, v uint32) uint32 { return (u * FNV_PRIME) ^ v }` (util.go 143-145). -/
def fnv1 (u v : Nat) : Nat := mul32 u FNV_PRIME ^^^ v

/-- `fnv1a(u, v uint32) uint32 { return (u ^ v) * FNV_PRIME }` (util.go 148-150). -/
def fnv1a (u v : Nat) : Nat := mul32 (u ^^^ v) FNV_PRIME

/-- `minUint32(a, b uint32) uint32` (util.go 119-125): `if a > b { return b }; return a`. -/
def minUint32 (a b : Nat) : Nat := if a > b then b else a

/-- `rotl32(a, b uint32) uint32 { return a<<(b&31) | a>>((32-b)&31) }` (util.go 161-163).
The `32-b` is Go `uint32` subtraction, hence `sub32`. -/
def rotl32 (a b : Nat) : Nat := shl32 a (b &&& 31) ||| a >>> (sub32 32 b &&& 31)

/-- `rotr32(a, b uint32) uint32 { return a<<((32-b)&31) | a>>(b&31) }` (util.go 165-167). -/
def rotr32 (a b : Nat) : Nat := shl32 a (sub32 32 b &&& 31) ||| a >>> (b &&& 31)

/-- `clz32(a uint32) uint32 { return uint32(bits.LeadingZeros32(a)) }` (util.go 169-171).
`bits.LeadingZeros32 a = 32 - bitlength a` for `a < 2^32`. -/
def clz32 (a : Nat) : Nat := 32 - (if a = 0 then 0 else Nat.log2 a + 1)

/-- Bit-population count by fuelled recursion over the binary digits; fuel `32`
suffices for every `uint32` value. -/
def popcountAux : Nat → Nat → Nat
  | 0, _ => 0
  | k + 1, n => n % 2 + popcountAux k (n / 2)

/-- `popcount32(a uint32) uint32 { return uint32(bits.OnesCount32(a)) }` (util.go 173-175). -/
def popcount32 (a : Nat) : Nat := popcountAux 32 a

/-- `mul_hi32(a, b uint32) uint32 { return uint32((uint64(a) * uint64(b)) >> 32) }`
(util.go 177-179): the full product of two values `< 2^32` fits in 64 bits, so the
upper word is plain division by `2^32`. -/
def mul_hi32 (a b : Nat) : Nat := (a * b) >>> 32

/-- `randomMath(a, b, selector uint32) uint32` (util.go 183-210): `switch selector % 11`
with eleven cases and a trailing `return 0` modelled as the default branch. -/
def randomMath (a b selector : Nat) : Nat :=
  match selector % 11 with
  | 0 => add32 a b
  | 1 => mul32 a b
  | 2 => mul_hi32 a b
  | 3 => minUint32 a b
  | 4 => rotl32 a b
  | 5 => rotr32 a b
  | 6 => a &&& b
  | 7 => a ||| b
  | 8 => a ^^^ b
  | 9 => clz32 a + clz32 b
  | 10 => popcount32 a + popcount32 b
  | _ => 0

/-- `randomMerge(a, b, selector uint32) uint32` (util.go 212-227):
`x := ((selector >> 16) % 31) + 1`, then `switch selector % 4` with four cases and a
trailing `return 0` modelled as the default branch. -/
def randomMerge (a b selector : Nat) : Nat :=
  let x := (selector >>> 16) % 31 + 1
  match selector % 4 with
  | 0 => add32 (mul32 a 33) b
  | 1 => mul32 (a ^^^ b) 33
  | 2 => rotl32 a x ^^^ b
  | 3 => rotr32 a x ^^^ b
  | _ => 0

/-! ### Spec-side formulations -/

/-- The spec's formula `rotl(a, b) = (a << (b mod 32)) | (a >> ((32 - (b mod 32)) mod 32))`
(spec section 4.5), with the left shift wrapping as every `uint32` operation does. -/
def rotlSpec (a b : Nat) : Nat := shl32 a (b % 32) ||| a >>> ((32 - b % 32) % 32)

/-- The spec's formula `rotr(a, b) = (a << ((32 - (b mod 32)) mod 32)) | (a >> (b mod 32))`
(spec section 4.5). -/
def rotrSpec (a b : Nat) : Nat := shl32 a ((32 - b % 32) % 32) ||| a >>> (b % 32)

/-- The spec's eleven-entry operation table for `randomMath` (spec section 4.6). -/
def mathOpTable : List (Nat → Nat → Nat) :=
  [add32, mul32, mul_hi32, minUint32, rotl32, rotr32,
   fun a b => a &&& b, fun a b => a ||| b, fun a b => a ^^^ b,
   fun a b => clz32 a + clz32 b, fun a b => popcount32 a + popcount32 b]

/-- The spec's `randomMath`: select entry `selector mod 11` from the eleven-entry table. -/
def randomMathSpec (a b selector : Nat) : Nat :=
  (mathOpTable.get ⟨selector % 11, Nat.mod_lt _ (by norm_num)⟩) a b

/-- The spec's four-entry operation table for `randomMerge` (spec section 4.6); the
rotate amount `x` is a further argument of entries 2 and 3. -/
def mergeOpTable : List (Nat → Nat → Nat → Nat) :=
  [fun a b _ => add32 (mul32 a 33) b,
   fun a b _ => mul32 (a ^^^ b) 33,
   fun a b x => rotl32 a x ^^^ b,
   fun a b x => rotr32 a x ^^^ b]

/-- The spec's `randomMerge`: `x = ((selector >> 16) mod 31) + 1`, then select entry
`selector mod 4` from the four-entry table. -/
def randomMergeSpec (a b selector : Nat) : Nat :=
  (mergeOpTable.get ⟨selector % 4, Nat.mod_lt _ (by norm_num)⟩) a b
    ((selector >>> 16) % 31 + 1)

/-! ### Shift-amount arithmetic -/

/-- `b &&& 31` is `b % 32`. -/
lemma and31_eq_mod (b : Nat) : b &&& 31 = b % 32 := by
  have h := Nat.and_pow_two_sub_one_eq_mod b 5
  norm_num at h
  exact h

/-- The Go rotate amount `(32 - b) &&& 31` (with wrapping `uint32` subtraction)
equals the spec's `(32 - (b mod 32)) mod 32`. -/
lemma sub32_and31 (b : Nat) : sub32 32 b &&& 31 = (32 - b % 32) % 32 := by
  rw [and31_eq_mod]
  show (32 % two32 + (two32 - b % two32)) % two32 % 32 = (32 - b % 32) % 32
  show (32 % 4294967296 + (4294967296 - b % 4294967296)) % 4294967296 % 32
      = (32 - b % 32) % 32
  omega

/-- `randomMath` agrees with the spec's eleven-entry table for all arguments. -/
lemma randomMath_eq_spec (a b selector : Nat) :
    randomMath a b selector = randomMathSpec a b selector := by
  have h : selector % 11 = 0 ∨ selector % 11 = 1 ∨ selector % 11 = 2 ∨
      selector % 11 = 3 ∨ selector % 11 = 4 ∨ selector % 11 = 5 ∨
      selector % 11 = 6 ∨ selector % 11 = 7 ∨ selector % 11 = 8 ∨
      selector % 11 = 9 ∨ selector % 11 = 10 := by omega
  rcases h with h | h | h | h | h | h | h | h | h | h | h <;>
    simp [randomMath, randomMathSpec, mathOpTable, h] <;> rfl

/-- `randomMerge` agrees with the spec's four-entry table for all arguments. -/
lemma randomMerge_eq_spec (a b selector : Nat) :
    randomMerge a b selector = randomMergeSpec a b selector := by
  have h : selector % 4 = 0 ∨ selector % 4 = 1 ∨ selector % 4 = 2 ∨
      selector % 4 = 3 := by omega
  rcases h with h | h | h | h <;>
    first
    | (simp [randomMerge, randomMergeSpec, mergeOpTable, h]; rfl)
    | simp [randomMerge, randomMergeSpec, mergeOpTable, h]

/-- C5: the implemented `rotl32`/`rotr32` (using `b & 31` and `(32 - b) & 31` with
wrapping subtraction) equal the spec's formulas
`(a << (b mod 32)) | (a >> ((32 - (b mod 32)) mod 32))` and
`(a << ((32 - (b mod 32)) mod 32)) | (a >> (b mod 32))` for all inputs,
including `b = 0` and `b ≥ 32`. -/
theorem c5_rot_eq_spec (a b : Nat) :
    rotl32 a b = rotlSpec a b ∧ rotr32 a b = rotrSpec a b := by
  unfold rotl32 rotr32 rotlSpec rotrSpec
  rw [and31_eq_mod, sub32_and31]
  exact ⟨rfl, rfl⟩

/-! ### Bit-level characterization of the rotations -/

lemma two32_eq : two32 = 2 ^ 32 := by norm_num [two32]

lemma testBit_ge32 (a m : Nat) (ha : a < two32) (hm : 32 ≤ m) :
    Nat.testBit a m = false := by
  apply Nat.testBit_lt_two_pow
  calc a < 2 ^ 32 := by rw [← two32_eq]; exact ha
    _ ≤ 2 ^ m := Nat.pow_le_pow_right (by norm_num) hm

lemma shl32_lt (a b : Nat) : shl32 a b < two32 :=
  Nat.mod_lt _ (by norm_num [two32])

lemma shiftRight_le_self (a s : Nat) : a >>> s ≤ a := by
  rw [Nat.shiftRight_eq_div_pow]
  exact Nat.div_le_self _ _

lemma rotl32_lt (a b : Nat) (ha : a < two32) : rotl32 a b < two32 := by
  unfold rotl32
  rw [two32_eq]
  apply Nat.or_lt_two_pow
  · rw [← two32_eq]; exact shl32_lt a _
  · exact lt_of_le_of_lt (shiftRight_le_self a _) (by rw [← two32_eq]; exact ha)

lemma rotl32_testBit (a k i : Nat) (ha : a < two32) (hk : k < 32) (hi : i < 32) :
    Nat.testBit (rotl32 a k) i = Nat.testBit a ((i + (32 - k)) % 32) := by
  have hk31 : k &&& 31 = k := by rw [and31_eq_mod]; omega
  have hs : sub32 32 k &&& 31 = (32 - k) % 32 := by
    rw [sub32_and31]
    have hkk : k % 32 = k := by omega
    rw [hkk]
  show Nat.testBit ((a <<< (k &&& 31)) % two32 ||| a >>> (sub32 32 k &&& 31)) i = _
  rw [hk31, hs, two32_eq]
  simp only [Nat.testBit_or, Nat.testBit_mod_two_pow, Nat.testBit_shiftLeft,
    Nat.testBit_shiftRight]
  rcases Nat.eq_zero_or_pos k with hk0 | hkpos
  · subst hk0
    have h1 : (32 - 0) % 32 = 0 := by norm_num
    have h2 : (i + (32 - 0)) % 32 = i := by omega
    simp [h1, h2, hi]
  · have hsk : (32 - k) % 32 = 32 - k := by omega
    rw [hsk]
    by_cases hik : k ≤ i
    · have hhi : Nat.testBit a (32 - k + i) = false :=
        testBit_ge32 a _ ha (by omega)
      have hidx : (i + (32 - k)) % 32 = i - k := by omega
      simp [hhi, hidx, hi, hik]
    · have hlt : ¬ (i ≥ k) := by omega
      have hidx : (i + (32 - k)) % 32 = 32 - k + i := by omega
      simp [hlt, hidx, hi]

lemma rotr32_lt (a b : Nat) (ha : a < two32) : rotr32 a b < two32 := by
  unfold rotr32
  rw [two32_eq]
  apply Nat.or_lt_two_pow
  · rw [← two32_eq]; exact shl32_lt a _
  · exact lt_of_le_of_lt (shiftRight_le_self a _) (by rw [← two32_eq]; exact ha)

lemma rotr32_testBit (a k i : Nat) (ha : a < two32) (hk : k < 32) (hi : i < 32) :
    Nat.testBit (rotr32 a k) i = Nat.testBit a ((i + k) % 32) := by
  have hk31 : k &&& 31 = k := by rw [and31_eq_mod]; omega
  have hs : sub32 32 k &&& 31 = (32 - k) % 32 := by
    rw [sub32_and31]
    have hkk : k % 32 = k := by omega
    rw [hkk]
  show Nat.testBit ((a <<< (sub32 32 k &&& 31)) % two32 ||| a >>> (k &&& 31)) i = _
  rw [hk31, hs, two32_eq]
  simp only [Nat.testBit_or, Nat.testBit_mod_two_pow, Nat.testBit_shiftLeft,
    Nat.testBit_shiftRight]
  rcases Nat.eq_zero_or_pos k with hk0 | hkpos
  · subst hk0
    have h1 : (32 - 0) % 32 = 0 := by norm_num
    have h2 : (i + 0) % 32 = i := by omega
    have h3 : i % 32 = i := by omega
    simp [h1, h2, h3, hi]
  · have hsk : (32 - k) % 32 = 32 - k := by omega
    rw [hsk]
    by_cases hik : 32 - k ≤ i
    · have hhi : Nat.testBit a (k + i) = false :=
        testBit_ge32 a _ ha (by omega)
      have hidx : (i + k) % 32 = i - (32 - k) := by omega
      simp [hhi, hidx, hi, hik]
    · have hlt : ¬ (i ≥ 32 - k) := by omega
      have hidx : (i + k) % 32 = k + i := by omega
      simp [hlt, hidx, hi]

/-! ### Claims C2, C3, C9, C6 -/

/-- C2: `randomMath(a, b, selector)` equals the operation selected by
`selector mod 11` from the spec's eleven-entry table, with 32-bit wraparound
arithmetic; in particular `randomMath 5 3 0 = 8`, `randomMath 5 3 1 = 15`,
and `randomMath 0xFFFFFFFF 1 0 = 0`. -/
theorem c2_randomMath_table (a b selector : Nat) :
    randomMath a b selector = randomMathSpec a b selector ∧
    randomMath 5 3 0 = 8 ∧ randomMath 5 3 1 = 15 ∧
    randomMath 0xFFFFFFFF 1 0 = 0 :=
  ⟨randomMath_eq_spec a b selector, by decide, by decide, by decide⟩

/-- C3: `randomMerge` first computes `x = ((selector >> 16) mod 31) + 1`, which always
lies in `1..31` inclusive, and dispatches on `selector mod 4` to the spec's four-entry
table with 32-bit wraparound arithmetic. -/
theorem c3_randomMerge_table (a b selector : Nat) :
    (1 ≤ (selector >>> 16) % 31 + 1 ∧ (selector >>> 16) % 31 + 1 ≤ 31) ∧
    randomMerge a b selector = randomMergeSpec a b selector := by
  refine ⟨⟨Nat.le_add_left 1 _, ?_⟩, randomMerge_eq_spec a b selector⟩
  have h : (selector >>> 16) % 31 < 31 := Nat.mod_lt _ (by norm_num)
  omega

/-- C9: the trailing `return 0` statements of `randomMath` and `randomMerge` are
unreachable: every selector has `selector % 11 < 11` and `selector % 4 < 4`, so one
switch case always fires and both functions agree with the default-free total
dispatch tables `randomMathSpec` and `randomMergeSpec`. -/
theorem c9_default_unreachable (selector : Nat) :
    selector % 11 < 11 ∧ selector % 4 < 4 ∧
    ∀ a b : Nat, randomMath a b selector = randomMathSpec a b selector ∧
      randomMerge a b selector = randomMergeSpec a b selector :=
  ⟨Nat.mod_lt _ (by norm_num), Nat.mod_lt _ (by norm_num),
    fun a b => ⟨randomMath_eq_spec a b selector, randomMerge_eq_spec a b selector⟩⟩

/-- C6: for every 32-bit `a` and every `k` in `0..31`, right rotation inverts left
rotation by the same amount: `rotr32 (rotl32 a k) k = a`; in particular
`rotl32 1 1 = 2` and `rotr32 2 1 = 1`. -/
theorem c6_rot_inverse (a k : Nat) (ha : a < two32) (hk : k ≤ 31) :
    rotr32 (rotl32 a k) k = a ∧ rotl32 1 1 = 2 ∧ rotr32 2 1 = 1 := by
  refine ⟨?_, by decide, by decide⟩
  apply Nat.eq_of_testBit_eq
  intro i
  by_cases hi : i < 32
  · rw [rotr32_testBit _ k i (rotl32_lt a k ha) (by omega) hi,
      rotl32_testBit a k _ ha (by omega) (Nat.mod_lt _ (by norm_num))]
    congr 1
    omega
  · rw [testBit_ge32 _ i (rotr32_lt _ k (rotl32_lt a k ha)) (by omega),
      testBit_ge32 a i ha (by omega)]

/-- C6 witness: the rotation-inverse theorem applied at `a = 5`, `k = 3`. -/
theorem c6_rot_inverse_witness :
    (5 : Nat) < two32 ∧ (3 : Nat) ≤ 31 ∧
    (rotr32 (rotl32 5 3) 3 = 5 ∧ rotl32 1 1 = 2 ∧ rotr32 2 1 = 1) :=
  ⟨by norm_num [two32], by norm_num,
    c6_rot_inverse 5 3 (by norm_num [two32]) (by norm_num)⟩

/-! ### fnvHash (util.go 153-157) -/

/-- The loop of `fnvHash(mix, data []uint32)` (util.go 153-157), with the mutated
slices as explicit state: index `i` runs from `0` to `len(mix)`; iteration `i`
executes `mix[i] = fnv1(mix[i], data[i])`.  A read `data[i]` with
`i >= len(data)` is Go's index-out-of-range panic, modelled as `none`. -/
def fnvLoop (mix data : List Nat) (i : Nat) : Option (List Nat × List Nat) :=
  if h : i < mix.length then
    match data[i]? with
    | none => none
    | some d => fnvLoop (mix.set i (fnv1 (mix.get ⟨i, h⟩) d)) data (i + 1)
  else some (mix, data)
termination_by mix.length - i
decreasing_by simp; omega

/-- `fnvHash(mix, data []uint32)` (util.go 153-157): run the loop from `i = 0` and
return the final values of both slices. -/
def fnvHash (mix data : List Nat) : Option (List Nat × List Nat) :=
  fnvLoop mix data 0

/-- Characterization of the `fnvHash` loop: when `data` is at least as long as
`mix`, the loop from position `i` keeps the first `i` entries of `mix`, combines
the rest elementwise with `fnv1`, and leaves `data` untouched. -/
lemma fnvLoop_eq (fuel i : Nat) (mix data : List Nat)
    (hlen : mix.length ≤ data.length) (hfuel : mix.length - i = fuel) :
    fnvLoop mix data i =
      some (mix.take i ++ List.zipWith fnv1 (mix.drop i) (data.drop i), data) := by
  induction fuel generalizing mix i with
  | zero =>
    have hi : ¬ i < mix.length := by omega
    rw [fnvLoop, dif_neg hi]
    rw [List.drop_eq_nil_of_le (by omega), List.take_of_length_le (by omega)]
    simp
  | succ fuel ih =>
    have hi : i < mix.length := by omega
    have hid : i < data.length := by omega
    rw [fnvLoop, dif_pos hi]
    rw [List.getElem?_eq_getElem hid]
    have hrec := ih (i + 1) (mix.set i (fnv1 (mix.get ⟨i, hi⟩) (data.get ⟨i, hid⟩)))
      (by simpa using hlen) (by simp; omega)
    simp only [List.get_eq_getElem] at hrec ⊢
    have htake : (mix.set i (fnv1 mix[i] data[i])).take (i + 1)
        = mix.take i ++ [fnv1 mix[i] data[i]] := by
      rw [List.take_succ, List.set_take,
        List.set_eq_of_length_le (by rw [List.length_take]; omega),
        List.getElem?_set_self (by simpa using hi)]
      rfl
    have hdropm : (mix.set i (fnv1 mix[i] data[i])).drop (i + 1) = mix.drop (i + 1) := by
      rw [List.drop_set, if_pos (by omega)]
    rw [hrec, htake, hdropm, List.drop_eq_getElem_cons hi, List.drop_eq_getElem_cons hid,
      List.zipWith_cons_cons, List.append_assoc]
    rfl

lemma zipWith_getD (f : Nat → Nat → Nat) :
    ∀ (as bs : List Nat) (i : Nat), i < as.length → i < bs.length →
      (List.zipWith f as bs).getD i 0 = f (as.getD i 0) (bs.getD i 0)
  | [], _, i, h1, _ => absurd h1 (by simp)
  | _ :: _, [], _, _, h2 => absurd h2 (by simp)
  | a :: as, b :: bs, 0, _, _ => rfl
  | a :: as, b :: bs, i + 1, h1, h2 =>
      zipWith_getD f as bs i (by simpa using h1) (by simpa using h2)

lemma zipWith_take_right (f : Nat → Nat → Nat) :
    ∀ (as bs : List Nat), List.zipWith f as bs = List.zipWith f as (bs.take as.length)
  | [], _ => by simp
  | _ :: _, [] => by simp
  | a :: as, b :: bs => by
      simp only [List.length_cons, List.take_succ_cons, List.zipWith_cons_cons]
      rw [← zipWith_take_right f as bs]

/-- C4: for word sequences `mix` and `data` with `len(data) >= len(mix)`, `fnvHash`
transforms `mix` so that entry `i` becomes `fnv1(mix[i], data[i])`, the elementwise
FNV-1 combination; in particular `fnvHash [1, 2] [3, 4]` leaves
`mix = [fnv1 1 3, fnv1 2 4]`. -/
theorem c4_fnvMix (mix data : List Nat) (h : mix.length ≤ data.length) :
    fnvHash mix data = some (List.zipWith fnv1 mix data, data) ∧
    (∀ i, i < mix.length →
      (List.zipWith fnv1 mix data).getD i 0 = fnv1 (mix.getD i 0) (data.getD i 0)) ∧
    fnvHash [1, 2] [3, 4] = some ([fnv1 1 3, fnv1 2 4], [3, 4]) := by
  refine ⟨?_, fun i hi => zipWith_getD fnv1 mix data i hi (by omega), ?_⟩
  · have := fnvLoop_eq mix.length 0 mix data h (by omega)
    simpa [fnvHash] using this
  · have := fnvLoop_eq 2 0 [1, 2] [3, 4] (by norm_num) (by norm_num)
    simpa [fnvHash] using this

/-- C4 witness: the elementwise-mixing theorem applied at `mix = [1, 2]`,
`data = [3, 4]`. -/
theorem c4_fnvMix_witness :
    ([1, 2] : List Nat).length ≤ ([3, 4] : List Nat).length ∧
    fnvHash [1, 2] [3, 4] = some ([fnv1 1 3, fnv1 2 4], [3, 4]) :=
  ⟨by decide, (c4_fnvMix [1, 2] [3, 4] (by decide)).2.2⟩

/-- C10: `fnvHash` never modifies `data`, never changes the length of `mix`, and
reads only the entries of `data` at indices below `len(mix)`: the `data` component
of the result is the argument itself, the new mix keeps its length, and any `data2`
agreeing with `data` on the first `len(mix)` entries yields the same new mix. -/
theorem c10_fnvMix_frame (mix data : List Nat) (h : mix.length ≤ data.length) :
    fnvHash mix data = some (List.zipWith fnv1 mix data, data) ∧
    (List.zipWith fnv1 mix data).length = mix.length ∧
    ∀ data2 : List Nat, mix.length ≤ data2.length →
      data.take mix.length = data2.take mix.length →
      (fnvHash mix data).map Prod.fst = (fnvHash mix data2).map Prod.fst := by
  refine ⟨?_, ?_, ?_⟩
  · have := fnvLoop_eq mix.length 0 mix data h (by omega)
    simpa [fnvHash] using this
  · rw [List.length_zipWith]
    omega
  · intro data2 h2 htake
    have e1 := fnvLoop_eq mix.length 0 mix data h (by omega)
    have e2 := fnvLoop_eq mix.length 0 mix data2 h2 (by omega)
    simp only [fnvHash, e1, e2, List.drop_zero, List.take_zero, List.nil_append,
      Option.map_some]
    have : List.zipWith fnv1 mix data = List.zipWith fnv1 mix data2 := by
      rw [zipWith_take_right fnv1 mix data, zipWith_take_right fnv1 mix data2,
        htake]
    rw [this]
    rfl

/-- C10 witness: the frame theorem applied at `mix = [1, 2]`, `data = [3, 4]`. -/
theorem c10_fnvMix_frame_witness :
    ([1, 2] : List Nat).length ≤ ([3, 4] : List Nat).length ∧
    fnvHash [1, 2] [3, 4] = some (List.zipWith fnv1 [1, 2] [3, 4], [3, 4]) ∧
    (List.zipWith fnv1 [1, 2] [3, 4]).length = ([1, 2] : List Nat).length :=
  ⟨by decide, (c10_fnvMix_frame [1, 2] [3, 4] (by decide)).1,
    (c10_fnvMix_frame [1, 2] [3, 4] (by decide)).2.1⟩

/-! ### uint32Array2ByteArray (util.go 40-52) -/

/-- `binary.LittleEndian.PutUint32`: the four bytes of a 32-bit word, least
significant first (each byte is `(v >> 8k) mod 256`, shifts written as division). -/
def putUint32LE (v : Nat) : List Nat :=
  [v % 256, v / 256 % 256, v / 65536 % 256, v / 16777216 % 256]

/-- `binary.BigEndian.PutUint32`: the four bytes of a 32-bit word, most
significant first. -/
def putUint32BE (v : Nat) : List Nat :=
  [v / 16777216 % 256, v / 65536 % 256, v / 256 % 256, v % 256]

/-- `uint32Array2ByteArray(c []uint32) []byte` (util.go 40-52): write each word at
offset `4*i` of a fresh buffer of length `4*len(c)`, using the host's byte order.
The runtime endianness probe `isLittleEndian` (util.go 33-36, an unsafe memory
inspection) is modelled by the boolean parameter `le`. -/
def uint32Array2ByteArray (le : Bool) : List Nat → List Nat
  | [] => []
  | v :: rest =>
      (if le then putUint32LE v else putUint32BE v) ++ uint32Array2ByteArray le rest

/-- `binary.LittleEndian.Uint32` respectively `binary.BigEndian.Uint32` (as used by
`swap`, util.go 136-140), mapped over consecutive 4-byte groups: deserializes a byte
buffer back into words in the given byte order. -/
def byteArray2Uint32Array (le : Bool) : List Nat → List Nat
  | b0 :: b1 :: b2 :: b3 :: rest =>
      (if le then b0 + 256 * b1 + 65536 * b2 + 16777216 * b3
       else b3 + 256 * b2 + 65536 * b1 + 16777216 * b0) :: byteArray2Uint32Array le rest
  | _ => []

/-- C8: serialization is total with exact length `4 * len(words)` in either byte
order, and deserializing with the same byte order reproduces any sequence of
32-bit words exactly (the empty sequence included). -/
theorem c8_words_bytes_roundtrip (le : Bool) (c : List Nat) (h : ∀ v ∈ c, v < two32) :
    (uint32Array2ByteArray le c).length = 4 * c.length ∧
    byteArray2Uint32Array le (uint32Array2ByteArray le c) = c ∧
    uint32Array2ByteArray le [] = [] := by
  refine ⟨?_, ?_, rfl⟩
  · induction c with
    | nil => rfl
    | cons v rest ih =>
      have hr : ∀ x ∈ rest, x < two32 := fun x hx => h x (List.mem_cons_of_mem v hx)
      cases le <;> simp [uint32Array2ByteArray, putUint32LE, putUint32BE, ih hr] <;> omega
  · induction c with
    | nil => cases le <;> rfl
    | cons v rest ih =>
      have hv : v < two32 := h v (List.mem_cons_self v rest)
      have hv32 : v < 4294967296 := by rwa [two32] at hv
      have hr : ∀ x ∈ rest, x < two32 := fun x hx => h x (List.mem_cons_of_mem v hx)
      cases le
      · simp [uint32Array2ByteArray, putUint32BE, byteArray2Uint32Array, ih hr]
        omega
      · simp [uint32Array2ByteArray, putUint32LE, byteArray2Uint32Array, ih hr]
        omega

/-- C8 witness: the serialization theorem applied in little-endian order to the
two-word sequence `[1, 4294967295]`. -/
theorem c8_words_bytes_roundtrip_witness :
    (∀ v ∈ ([1, 4294967295] : List Nat), v < two32) ∧
    ((uint32Array2ByteArray true [1, 4294967295]).length = 4 * 2 ∧
      byteArray2Uint32Array true (uint32Array2ByteArray true [1, 4294967295])
        = [1, 4294967295] ∧
      uint32Array2ByteArray true [] = []) :=
  ⟨by decide, c8_words_bytes_roundtrip true [1, 4294967295] (by decide)⟩

/-! ### seedHash (util.go 105-115) -/

/-- `seed := make([]byte, 32)`: the 32-byte all-zero seed. -/
def zeroSeed : List Nat := List.replicate 32 0

/-- The loop bound `int(block/epochLength)` of util.go 111: the `uint64` quotient is
converted to a signed 64-bit `int`, which is negative for quotients `≥ 2^63`; a
negative bound runs the loop zero times. -/
def goLoopCount (q : Nat) : Nat := if q < 9223372036854775808 then q else 0

/-- `seedHash(block, epochLength uint64) []byte` (util.go 105-115), parametrized by
the 256-bit digest function `digest` (the external `sha3.NewLegacyKeccak256` wrapped
by `makeHasher`; on the 32-byte seed buffer each loop iteration replaces the seed by
its Keccak-256 digest).  When `epochLength = 0` the guard `block < epochLength` is
false and the loop bound `block/epochLength` is a Go division-by-zero runtime panic,
modelled as `none`. -/
def seedHash (digest : List Nat → List Nat) (block epochLength : Nat) :
    Option (List Nat) :=
  if block < epochLength then some zeroSeed
  else if epochLength = 0 then none
  else some (Nat.iterate digest (goLoopCount (block / epochLength)) zeroSeed)

/-- C1 counterexample: at `block = 0`, `epochLength = 0` the claim's `otherwise`
branch promises the digest applied `⌊0/0⌋ = 0` times, i.e. the zero seed, but the
code divides by zero and panics (`none`). -/
theorem c1_seedHash_counterexample :
    seedHash id 0 0 = none ∧
    some (Nat.iterate id (0 / 0) zeroSeed) = some zeroSeed ∧
    seedHash id 0 0 ≠ some (Nat.iterate id (0 / 0) zeroSeed) := by
  refine ⟨rfl, rfl, ?_⟩
  intro hcontra
  simp [seedHash] at hcontra

/-- C1 (amended): for 64-bit `block` and `epochLength` with `epochLength ≥ 1`,
`seedHash` returns 32 zero bytes when `block < epochLength`; otherwise, with
`q = ⌊block/epochLength⌋`, it returns the digest applied `q` times to the zero seed
when `q < 2^63`, and — because the loop bound is converted to a signed 64-bit `int`,
which is then negative — the untouched zero seed when `q ≥ 2^63`.  (For
`epochLength = 0` the code panics with a division by zero instead of returning.) -/
theorem c1_seedHash_amended (digest : List Nat → List Nat) (block epochLength : Nat)
    (hL : 1 ≤ epochLength) (_hb : block < 18446744073709551616)
    (_hLb : epochLength < 18446744073709551616) :
    seedHash digest block epochLength =
      some (if block < epochLength then zeroSeed
        else if block / epochLength < 9223372036854775808 then
          Nat.iterate digest (block / epochLength) zeroSeed
        else zeroSeed) := by
  unfold seedHash goLoopCount
  by_cases h1 : block < epochLength
  · simp [h1]
  · have h0 : ¬ epochLength = 0 := by omega
    simp only [if_neg h1, if_neg h0]
    by_cases h2 : block / epochLength < 9223372036854775808
    · simp [h2]
    · simp [h2]

/-- C1 witness: the amended seed-chain theorem applied at `block = 2`,
`epochLength = 1` with the concrete digest `fun l => 7 :: l`. -/
theorem c1_seedHash_amended_witness :
    (1 : Nat) ≤ 1 ∧ (2 : Nat) < 18446744073709551616 ∧
    (1 : Nat) < 18446744073709551616 ∧
    seedHash (fun l => 7 :: l) 2 1 =
      some (if 2 < 1 then zeroSeed
        else if 2 / 1 < 9223372036854775808 then
          Nat.iterate (fun l => 7 :: l) (2 / 1) zeroSeed
        else zeroSeed) :=
  ⟨by norm_num, by norm_num, by norm_num,
    c1_seedHash_amended (fun l => 7 :: l) 2 1 (by norm_num) (by norm_num) (by norm_num)⟩

/-! ### makeHasher (util.go 84-101) -/

/-- A Go `hash.Hash` algorithm instance with explicit state of type `σ`:
`Size`, `Reset`, `Write`, and the optional read-without-finalize capability of the
`readerHash` interface (`Read`, returning the accumulated digest bytes), which a
given algorithm may or may not support. -/
structure GoHash (σ : Type) where
  size : Nat
  init : σ
  reset : σ → σ
  write : σ → List Nat → σ
  read : Option (σ → List Nat)

/-- `makeHasher(h hash.Hash) hasher` (util.go 84-101): the type assertion
`h.(readerHash)` fails — `panic("can't find Read method on hash")`, modelled as
`none` — exactly when the algorithm lacks the `Read` capability.  On success the
returned function executes `rh.Reset(); rh.Write(data); rh.Read(dest[:outputLen])`:
it writes the first `outputLen = Size()` digest bytes into `dest`, leaving the rest
of `dest` untouched; slicing `dest[:outputLen]` with `dest` shorter than
`outputLen` is a Go bounds panic, modelled as a per-call `none`. -/
def makeHasher {σ : Type} (h : GoHash σ) :
    Option (List Nat → List Nat → Option (List Nat)) :=
  match h.read with
  | none => none
  | some rd => some (fun dest data =>
      if h.size ≤ dest.length then
        some ((rd (h.write (h.reset h.init) data)).take h.size ++ dest.drop h.size)
      else none)

/-- C7: `makeHasher` fails fatally at construction exactly when the algorithm lacks
the read-without-finalize capability; when construction succeeds, each call of the
returned function resets the state, absorbs `data`, and writes exactly `size`
digest bytes into `dest` (given `dest` of sufficient length and a `Read` that fills
the requested `size` bytes): the call succeeds, the output keeps `dest`'s length,
its first `size` bytes are the digest of the freshly reset-and-absorbed state, and
the bytes beyond `size` are `dest`'s own. -/
theorem c7_makeHasher_contract {σ : Type} (h : GoHash σ) :
    (makeHasher h = none ↔ h.read = none) ∧
    (∀ rd, h.read = some rd →
      ∃ f, makeHasher h = some f ∧
        ∀ dest data : List Nat, h.size ≤ dest.length →
          (rd (h.write (h.reset h.init) data)).length = h.size →
          f dest data = some (rd (h.write (h.reset h.init) data) ++ dest.drop h.size) ∧
          ∀ out, f dest data = some out →
            out.length = dest.length ∧ out.drop h.size = dest.drop h.size) := by
  cases hr : h.read with
  | none =>
    refine ⟨by simp [makeHasher, hr], ?_⟩
    intro rd hrd
    exact absurd hrd (by simp)
  | some rd0 =>
    refine ⟨by simp [makeHasher, hr], ?_⟩
    intro rd hrd
    obtain rfl : rd0 = rd := by injection hrd
    refine ⟨fun dest data =>
      if h.size ≤ dest.length then
        some ((rd0 (h.write (h.reset h.init) data)).take h.size ++ dest.drop h.size)
      else none, by simp [makeHasher, hr], ?_⟩
    intro dest data hdest hlen
    have happ : (rd0 (h.write (h.reset h.init) data)).take h.size
        ++ dest.drop h.size
        = rd0 (h.write (h.reset h.init) data) ++ dest.drop h.size := by
      rw [List.take_of_length_le (by omega)]
    refine ⟨by simp [if_pos hdest, happ], ?_⟩
    intro out hout
    simp only [if_pos hdest, happ] at hout
    obtain rfl : rd0 (h.write (h.reset h.init) data) ++ dest.drop h.size = out := by
      injection hout
    constructor
    · rw [List.length_append, List.length_drop, hlen]
      omega
    · exact List.drop_left' hlen

/-- A concrete algorithm instance exercising the `makeHasher` contract: one output
byte, state is the absorbed data, `Read` yields the data length modulo 256. -/
def sampleGoHash : GoHash (List Nat) where
  size := 1
  init := []
  reset := fun _ => []
  write := fun _ d => d
  read := some (fun s => [s.length % 256])

/-- C7 witness: the `makeHasher` contract applied to the concrete algorithm
`sampleGoHash`. -/
theorem c7_makeHasher_contract_witness :
    (makeHasher sampleGoHash = none ↔ sampleGoHash.read = none) ∧
    (∀ rd, sampleGoHash.read = some rd →
      ∃ f, makeHasher sampleGoHash = some f ∧
        ∀ dest data : List Nat, sampleGoHash.size ≤ dest.length →
          (rd (sampleGoHash.write (sampleGoHash.reset sampleGoHash.init) data)).length
            = sampleGoHash.size →
          f dest data = some
            (rd (sampleGoHash.write (sampleGoHash.reset sampleGoHash.init) data)
              ++ dest.drop sampleGoHash.size) ∧
          ∀ out, f dest data = some out →
            out.length = dest.length ∧
            out.drop sampleGoHash.size = dest.drop sampleGoHash.size) :=
  c7_makeHasher_contract sampleGoHash
